import Mathlib

/-!
Verification of the feature-preparation pipeline in `src/data_prep.py`
(repository `bkleyn/alzheimers`).

The script is a straight-line pandas program.  This file shallowly embeds the
operations the claims are about:

* `clean_string`  — the text cleaner applied to text categorical columns
  (lowercase, space and slash to underscore, periods removed, the substring
  "-4" replaced by "unknown"; a missing cell stays missing, mirroring the
  `try`/`except` that returns `None`).
* `value_counts_index` / `keptLevels` / `bucketCol` — the rare-level
  collapsing (`pd.value_counts(col).index[:30]`, everything else `'other'`).
* `get_dummies` — `pd.get_dummies(col, prefix=c, drop_first=True)`:
  levels are the sorted distinct non-missing values, the first (smallest)
  level is dropped, indicator columns are named `c_level`.
* `parseNum` / `to_numeric` / `coerceColumn` — `Series.apply(pd.to_numeric)`
  with the default `errors='raise'`: an unparseable value raises, a missing
  value stays missing.  `parseNum` models the numeric parser on optionally
  signed decimal literals with optional surrounding blanks (the forms the
  claims exercise).  Numbers are modelled as rationals.
* `blankReplace` — `data.replace(' ', np.nan)`: only cells equal to the
  one-space string `" "` become missing.
* `stripAngles` — `.str.replace("<", "").str.replace(">", "")`.
* `selectLatest` — the PTDEMOG latest-record selection:
  `groupby('RID')['USERDATE'].rank(ascending=False)` with the pandas default
  `method='average'`, keeping rows whose rank equals 1.
* `leftJoin` / `joinAll` — `DataFrame.join(..., how='left')` of auxiliary
  tables (unique keys) onto the primary table.
* `set_index_verify` / `fhqPipeline` — `set_index(..., verify_integrity=True)`
  and the FHQ screening-visit filter feeding it.

`pd.value_counts` sorts by count descending with an unspecified order on
tied counts; here ties are broken deterministically by first occurrence
(stable insertion sort over the first-occurrence list of distinct values).
-/

/-! ### Characters: the text cleaner `clean_string` -/

/-- Python `str.lower`, modelled on the ASCII letters (the data is ASCII). -/
def lowerChar (c : Char) : Char :=
  if 65 ≤ c.toNat ∧ c.toNat ≤ 90 then Char.ofNat (c.toNat + 32) else c

/-- `str.replace(" ", "_")`, per character. -/
def spaceToUnd (c : Char) : Char := if c = ' ' then '_' else c

/-- `str.replace("/", "_")`, per character. -/
def slashToUnd (c : Char) : Char := if c = '/' then '_' else c

/-- The characters of the replacement token `"unknown"`. -/
def unknownChars : List Char := ['u', 'n', 'k', 'n', 'o', 'w', 'n']

/-- `str.replace("-4", "unknown")`: replace every (left-to-right,
non-overlapping) occurrence of the two-character substring `-4`. -/
def replaceDash4 : List Char → List Char
  | [] => []
  | [c] => [c]
  | a :: b :: t =>
    if a = '-' ∧ b = '4' then unknownChars ++ replaceDash4 t
    else a :: replaceDash4 (b :: t)

/-- Does the list contain the substring `-4`? -/
def hasDash4 : List Char → Bool
  | [] => false
  | [_] => false
  | a :: b :: t => (a == '-' && b == '4') || hasDash4 (b :: t)

/-- The cleaning applied to one string cell:
`s.lower().replace(" ", "_").replace("/", "_").replace(".", "")`
followed by `s.replace("-4", "unknown")` (the order of `data_prep.py`). -/
def cleanList (l : List Char) : List Char :=
  replaceDash4 ((((l.map lowerChar).map spaceToUnd).map slashToUnd).filter
    (fun c => c ≠ '.'))

/-- `clean_string` of `data_prep.py`: a string cell is cleaned, a missing
cell (the `except` branch) stays missing. -/
def clean_string (row : Option String) : Option String :=
  row.map (fun s => ⟨cleanList s.data⟩)

/-! ### Helper induction principle for two-characters-at-a-time recursion -/

theorem list2induct {P : List Char → Prop} (h0 : P []) (h1 : ∀ c, P [c])
    (h2 : ∀ a b t, P t → P (b :: t) → P (a :: b :: t)) : ∀ l, P l := by
  have H : ∀ n l, List.length l ≤ n → P l := by
    intro n
    induction n with
    | zero =>
      intro l hl
      cases l with
      | nil => exact h0
      | cons a t => simp at hl
    | succ n ih =>
      intro l hl
      cases l with
      | nil => exact h0
      | cons a t =>
        cases t with
        | nil => exact h1 a
        | cons b t =>
          have hl' : t.length + 2 ≤ n + 1 := by simpa using hl
          exact h2 a b t (ih t (by omega)) (ih (b :: t) (by simp; omega))
  intro l
  exact H l.length l le_rfl

/-! ### Facts about `replaceDash4` -/

theorem hasDash4_cons_of_ne {c : Char} (h : c ≠ '-') (l : List Char) :
    hasDash4 (c :: l) = hasDash4 l := by
  cases l with
  | nil => simp [hasDash4]
  | cons b t => simp [hasDash4, h]

theorem replaceDash4_head (b : Char) (t : List Char) :
    ∃ x xs, replaceDash4 (b :: t) = x :: xs ∧ (x = b ∨ x = 'u') := by
  cases t with
  | nil => exact ⟨b, [], rfl, Or.inl rfl⟩
  | cons c t' =>
    by_cases h : b = '-' ∧ c = '4'
    · refine ⟨'u', ['n', 'k', 'n', 'o', 'w', 'n'] ++ replaceDash4 t', ?_, Or.inr rfl⟩
      rw [replaceDash4, if_pos h]
      rfl
    · exact ⟨b, replaceDash4 (c :: t'), by rw [replaceDash4, if_neg h], Or.inl rfl⟩

/-- The output of `replaceDash4` never contains the substring `-4`:
all occurrences are replaced. -/
theorem hasDash4_replaceDash4 (l : List Char) :
    hasDash4 (replaceDash4 l) = false := by
  induction l using list2induct with
  | h0 => rfl
  | h1 c => rfl
  | h2 a b t iht ihbt =>
    by_cases h : a = '-' ∧ b = '4'
    · rw [replaceDash4, if_pos h]
      simp only [unknownChars, List.cons_append, List.nil_append]
      rw [hasDash4_cons_of_ne (by decide), hasDash4_cons_of_ne (by decide),
        hasDash4_cons_of_ne (by decide), hasDash4_cons_of_ne (by decide),
        hasDash4_cons_of_ne (by decide), hasDash4_cons_of_ne (by decide),
        hasDash4_cons_of_ne (by decide)]
      exact iht
    · rw [replaceDash4, if_neg h]
      obtain ⟨x, xs, hx, hhead⟩ := replaceDash4_head b t
      by_cases ha : a = '-'
      · have hb : b ≠ '4' := fun hb => h ⟨ha, hb⟩
        have hx4 : x ≠ '4' := by
          rcases hhead with h1 | h1
          · rw [h1]; exact hb
          · rw [h1]; decide
        rw [hx, hasDash4]
        have : (a == '-' && x == '4') = false := by
          simp [hx4]
        rw [this, Bool.false_or, ← hx]
        exact ihbt
      · rw [hasDash4_cons_of_ne ha]
        exact ihbt

/-- On a list without the substring `-4`, `replaceDash4` is the identity. -/
theorem replaceDash4_of_not_hasDash4 (l : List Char)
    (h : hasDash4 l = false) : replaceDash4 l = l := by
  induction l using list2induct with
  | h0 => rfl
  | h1 c => rfl
  | h2 a b t iht ihbt =>
    rw [hasDash4, Bool.or_eq_false_iff] at h
    obtain ⟨h1, h2⟩ := h
    have hne : ¬(a = '-' ∧ b = '4') := by
      intro hab
      simp [hab.1, hab.2] at h1
    rw [replaceDash4, if_neg hne, ihbt h2]

/-- Every character of the output of `replaceDash4` is a character of the
input or a character of `"unknown"`. -/
theorem mem_replaceDash4 (l : List Char) :
    ∀ c ∈ replaceDash4 l, c ∈ l ∨ c ∈ unknownChars := by
  induction l using list2induct with
  | h0 => intro c hc; simp [replaceDash4] at hc
  | h1 d => intro c hc; simp only [replaceDash4] at hc; simp at hc; simp [hc]
  | h2 a b t iht ihbt =>
    intro c hc
    by_cases h : a = '-' ∧ b = '4'
    · rw [replaceDash4, if_pos h] at hc
      rcases List.mem_append.1 hc with h1 | h1
      · exact Or.inr h1
      · rcases iht c h1 with h2 | h2
        · exact Or.inl (by simp [h2])
        · exact Or.inr h2
    · rw [replaceDash4, if_neg h] at hc
      rcases List.mem_cons.1 hc with h1 | h1
      · exact Or.inl (by simp [h1])
      · rcases ihbt c h1 with h2 | h2
        · rcases List.mem_cons.1 h2 with h3 | h3
          · exact Or.inl (by simp [h3])
          · exact Or.inl (by simp [h3])
        · exact Or.inr h2

/-! ### Cleaned characters are fixed points of the per-character steps -/

/-- A character already in cleaned form: unaffected by lowercasing, by the
space and slash replacements, and not a period. -/
def cleanChar (c : Char) : Prop :=
  lowerChar c = c ∧ spaceToUnd c = c ∧ slashToUnd c = c ∧ c ≠ '.'

instance : DecidablePred cleanChar := fun c => by
  unfold cleanChar
  infer_instance

theorem toNat_ofNat_char (n : Nat) (h : n ≤ 122) : (Char.ofNat n).toNat = n := by
  have hv : Nat.isValidChar n := Or.inl (by omega)
  unfold Char.ofNat
  rw [dif_pos hv]
  rfl

theorem lowerChar_lowerChar (c : Char) : lowerChar (lowerChar c) = lowerChar c := by
  by_cases h : 65 ≤ c.toNat ∧ c.toNat ≤ 90
  · have h2 : (lowerChar c).toNat = c.toNat + 32 := by
      rw [lowerChar, if_pos h]
      exact toNat_ofNat_char _ (by omega)
    have h3 : ¬(65 ≤ (lowerChar c).toNat ∧ (lowerChar c).toNat ≤ 90) := by omega
    show (if 65 ≤ (lowerChar c).toNat ∧ (lowerChar c).toNat ≤ 90 then
      Char.ofNat ((lowerChar c).toNat + 32) else lowerChar c) = lowerChar c
    rw [if_neg h3]
  · have hc : lowerChar c = c := by rw [lowerChar, if_neg h]
    rw [hc]
    exact hc

theorem cleanChar_step (d : Char) :
    lowerChar (slashToUnd (spaceToUnd (lowerChar d))) = slashToUnd (spaceToUnd (lowerChar d)) ∧
    spaceToUnd (slashToUnd (spaceToUnd (lowerChar d))) = slashToUnd (spaceToUnd (lowerChar d)) ∧
    slashToUnd (slashToUnd (spaceToUnd (lowerChar d))) = slashToUnd (spaceToUnd (lowerChar d)) := by
  have he : lowerChar (lowerChar d) = lowerChar d := lowerChar_lowerChar d
  set e := lowerChar d with hedef
  by_cases hsp : e = ' '
  · rw [hsp]
    refine ⟨?_, ?_, ?_⟩ <;> decide
  · rw [spaceToUnd, if_neg hsp]
    by_cases hsl : e = '/'
    · rw [hsl]
      refine ⟨?_, ?_, ?_⟩ <;> decide
    · have h1 : spaceToUnd e = e := by rw [spaceToUnd, if_neg hsp]
      have h2 : slashToUnd e = e := by rw [slashToUnd, if_neg hsl]
      exact ⟨by rw [h2]; exact he, by rw [h2]; exact h1, by rw [h2]; exact h2⟩

/-- Every character produced by `cleanList` is in cleaned form. -/
theorem cleanChar_of_mem_cleanList (l : List Char) :
    ∀ c ∈ cleanList l, cleanChar c := by
  intro c hc
  rcases mem_replaceDash4 _ c hc with hmem | hunk
  · rw [List.mem_filter] at hmem
    obtain ⟨hmem, hdot⟩ := hmem
    rw [List.mem_map] at hmem
    obtain ⟨d1, hd1, hc1⟩ := hmem
    rw [List.mem_map] at hd1
    obtain ⟨d2, hd2, hc2⟩ := hd1
    rw [List.mem_map] at hd2
    obtain ⟨d3, _, hc3⟩ := hd2
    have hstep := cleanChar_step d3
    rw [hc3, hc2, hc1] at hstep
    exact ⟨hstep.1, hstep.2.1, hstep.2.2, by simpa using hdot⟩
  · have hall : ∀ x ∈ unknownChars, cleanChar x := by decide
    exact hall c hunk

theorem mapSelf {α : Type} (f : α → α) (l : List α) (h : ∀ x ∈ l, f x = x) :
    l.map f = l := by
  induction l with
  | nil => rfl
  | cons a t ih =>
    rw [List.map_cons, h a (by simp), ih (fun x hx => h x (by simp [hx]))]

/-- `cleanList` is idempotent: a cleaned string cleans to itself. -/
theorem cleanList_idem (l : List Char) : cleanList (cleanList l) = cleanList l := by
  have hgood := cleanChar_of_mem_cleanList l
  set m := cleanList l with hm
  have h1 : m.map lowerChar = m := mapSelf _ _ (fun x hx => (hgood x hx).1)
  have h2 : m.map spaceToUnd = m := mapSelf _ _ (fun x hx => (hgood x hx).2.1)
  have h3 : m.map slashToUnd = m := mapSelf _ _ (fun x hx => (hgood x hx).2.2.1)
  have h4 : m.filter (fun c => c ≠ '.') = m :=
    List.filter_eq_self.2 (fun x hx => by
      simpa using (hgood x hx).2.2.2)
  have h5 : hasDash4 m = false := hasDash4_replaceDash4 _
  rw [cleanList, h1, h2, h3, h4]
  exact replaceDash4_of_not_hasDash4 m h5

/-! ### Claims C8 and C10: the sentinel mapping of `clean_string` -/

/-- **C8.** `clean_string` maps the raw sentinel value `-4` to the literal
token `unknown` (not to a numeric-like string), and maps a value that cannot
be cleaned — a missing value — to missing, never to a string. -/
theorem c8_sentinel_unknown :
    clean_string (some "-4") = some "unknown" ∧
    clean_string none = none ∧
    ∀ v : Option String, (clean_string v).isNone ↔ v.isNone := by
  refine ⟨by decide, rfl, ?_⟩
  intro v
  cases v <;> simp [clean_string]

/-- **C10.** The cleaner replaces every occurrence of the substring `-4`
(after lowercasing, space/slash replacement and period removal), not only
values exactly equal to the sentinel: `"-40"` cleans to `"unknown0"`,
`"-4.5"` cleans to `"unknown5"`, and no cleaned string still contains the
substring `-4`. -/
theorem c10_dash4_substring :
    clean_string (some "-40") = some "unknown0" ∧
    clean_string (some "-4.5") = some "unknown5" ∧
    ∀ s : String, hasDash4 (cleanList s.data) = false := by
  exact ⟨by decide, by decide, fun s => hasDash4_replaceDash4 _⟩

/-! ### `pd.value_counts` and the rare-level bucketing (threshold 30) -/

/-- The distinct values of a list, in order of first occurrence (the order in
which `pd.value_counts`' hash table meets them). -/
def distinctFirst {α : Type} [DecidableEq α] (l : List α) : List α :=
  l.foldl (fun acc x => if x ∈ acc then acc else acc ++ [x]) []

theorem mem_distinctFirst_aux {α : Type} [DecidableEq α] (l : List α) :
    ∀ acc x, (x ∈ l.foldl (fun acc x => if x ∈ acc then acc else acc ++ [x]) acc
      ↔ x ∈ acc ∨ x ∈ l) := by
  induction l with
  | nil => intro acc x; simp
  | cons a t ih =>
    intro acc x
    rw [List.foldl_cons]
    by_cases h : a ∈ acc
    · rw [if_pos h, ih]
      constructor
      · rintro (h1 | h1)
        · exact Or.inl h1
        · exact Or.inr (by simp [h1])
      · rintro (h1 | h1)
        · exact Or.inl h1
        · rcases List.mem_cons.1 h1 with h2 | h2
          · exact Or.inl (h2 ▸ h)
          · exact Or.inr h2
    · rw [if_neg h, ih]
      constructor
      · rintro (h1 | h1)
        · rcases List.mem_append.1 h1 with h2 | h2
          · exact Or.inl h2
          · exact Or.inr (by simp at h2; simp [h2])
        · exact Or.inr (by simp [h1])
      · rintro (h1 | h1)
        · exact Or.inl (List.mem_append.2 (Or.inl h1))
        · rcases List.mem_cons.1 h1 with h2 | h2
          · exact Or.inl (List.mem_append.2 (Or.inr (by simp [h2])))
          · exact Or.inr h2

theorem mem_distinctFirst {α : Type} [DecidableEq α] (l : List α) (x : α) :
    x ∈ distinctFirst l ↔ x ∈ l := by
  rw [distinctFirst, mem_distinctFirst_aux]
  simp

theorem nodup_distinctFirst_aux {α : Type} [DecidableEq α] (l : List α) :
    ∀ acc, acc.Nodup →
      (l.foldl (fun acc x => if x ∈ acc then acc else acc ++ [x]) acc).Nodup := by
  induction l with
  | nil => intro acc h; simpa using h
  | cons a t ih =>
    intro acc h
    rw [List.foldl_cons]
    by_cases hmem : a ∈ acc
    · rw [if_pos hmem]
      exact ih acc h
    · rw [if_neg hmem]
      refine ih _ ?_
      simp [List.nodup_append, h, hmem]

theorem nodup_distinctFirst {α : Type} [DecidableEq α] (l : List α) :
    (distinctFirst l).Nodup :=
  nodup_distinctFirst_aux l [] List.nodup_nil

/-- Number of occurrences of value `v` in a column (missing cells excluded
by `pd.value_counts`). -/
def countVal (col : List (Option String)) (v : String) : Nat :=
  col.countP (fun x => x == some v)

/-- Stable insertion (descending by `key`): `x` goes before the first element
whose key is not larger, so equal keys keep their input order. -/
def insertDesc {α : Type} (key : α → Nat) (x : α) : List α → List α
  | [] => [x]
  | y :: ys => if key y ≤ key x then x :: y :: ys else y :: insertDesc key x ys

/-- Stable insertion sort, descending by `key`. -/
def sortCountDesc {α : Type} (key : α → Nat) (l : List α) : List α :=
  l.foldr (insertDesc key) []

theorem insertDesc_perm {α : Type} (key : α → Nat) (x : α) (l : List α) :
    (insertDesc key x l).Perm (x :: l) := by
  induction l with
  | nil => exact List.Perm.refl _
  | cons y ys ih =>
    rw [insertDesc]
    by_cases h : key y ≤ key x
    · rw [if_pos h]
    · rw [if_neg h]
      exact (ih.cons y).trans (List.Perm.swap x y ys)

theorem sortCountDesc_perm {α : Type} (key : α → Nat) (l : List α) :
    (sortCountDesc key l).Perm l := by
  induction l with
  | nil => exact List.Perm.refl _
  | cons a t ih =>
    rw [sortCountDesc, List.foldr_cons]
    exact (insertDesc_perm key a _).trans (ih.cons a)

/-- `pd.value_counts(col).index`: the distinct non-missing values sorted by
frequency, most frequent first (ties by first occurrence). -/
def value_counts_index (col : List (Option String)) : List String :=
  sortCountDesc (countVal col) (distinctFirst (col.filterMap id))

/-- `list(pd.value_counts(data[c]).index[:30])` — the kept levels. -/
def keptLevels (col : List (Option String)) : List String :=
  (value_counts_index col).take 30

/-- `lambda x: x if x in counts else 'other'` applied to one cell.  A missing
cell is not in the kept list, so it becomes `'other'` too. -/
def bucketCell (kept : List String) (x : Option String) : String :=
  match x with
  | some v => if v ∈ kept then v else "other"
  | none => "other"

/-- The rare-level collapsing of one column. -/
def bucketCol (col : List (Option String)) : List String :=
  col.map (bucketCell (keptLevels col))

/-- The clean-and-bucket step of the categorical encoder for one text
column: clean every cell, then collapse levels outside the top 30. -/
def cleanBucket (col : List (Option String)) : List String :=
  bucketCol (col.map clean_string)

/-- Number of distinct values of the output column. -/
def effectiveLevels (l : List String) : Nat := l.toFinset.card

/-! ### Claim C5: top-30 retention and the `'other'` bucket -/

/-- **C5.** The 30 most frequent distinct values of a (cleaned) text
categorical column are retained unchanged; every other value — and a missing
cell — is rewritten to the token `'other'`; consequently the bucketed column
has at most 31 distinct values (30 kept plus `'other'`), so 35 distinct
cleaned values yield at most 31 effective levels.  Ties in the frequency
order are broken by first occurrence (`pd.value_counts` leaves the order of
equal counts unspecified). -/
theorem c5_top30_bucket (col : List (Option String)) :
    (keptLevels col).length ≤ 30 ∧
    (∀ v ∈ keptLevels col, bucketCell (keptLevels col) (some v) = v) ∧
    (∀ v : String, v ∉ keptLevels col →
      bucketCell (keptLevels col) (some v) = "other") ∧
    bucketCell (keptLevels col) none = "other" ∧
    effectiveLevels (bucketCol col) ≤ 31 := by
  refine ⟨List.length_take_le 30 _, ?_, ?_, rfl, ?_⟩
  · intro v hv
    simp [bucketCell, hv]
  · intro v hv
    simp [bucketCell, hv]
  · have hsub : (bucketCol col).toFinset ⊆ ("other" :: keptLevels col).toFinset := by
      intro x hx
      rw [List.mem_toFinset] at hx ⊢
      rw [bucketCol, List.mem_map] at hx
      obtain ⟨cell, _, hcell⟩ := hx
      rw [← hcell]
      cases cell with
      | none => simp [bucketCell]
      | some v =>
        by_cases hv : v ∈ keptLevels col
        · simp [bucketCell, hv]
        · simp [bucketCell, hv]
    calc (bucketCol col).toFinset.card
        ≤ ("other" :: keptLevels col).toFinset.card := Finset.card_le_card hsub
      _ ≤ ("other" :: keptLevels col).length := List.toFinset_card_le _
      _ = (keptLevels col).length + 1 := by simp
      _ ≤ 31 := by
          have := List.length_take_le 30 (value_counts_index col)
          rw [keptLevels]
          omega

/-- Witness for C5 at a concrete column. -/
theorem c5_top30_bucket_witness :
    bucketCell (keptLevels [some "x", some "x", some "y"]) (some "x") = "x" ∧
    bucketCell (keptLevels [some "x", some "x", some "y"]) (some "zzz") = "other" := by
  have h := c5_top30_bucket [some "x", some "x", some "y"]
  exact ⟨h.2.1 "x" (by decide), h.2.2.1 "zzz" (by decide)⟩

/-! ### Claim C6: re-applying clean-and-bucket -/

/-- Every value of a clean-and-bucketed column cleans to itself (it is either
the token `'other'` or an already-cleaned kept level, and cleaning is
idempotent). -/
theorem clean_string_fixed_on_cleanBucket (col : List (Option String)) :
    ∀ w ∈ cleanBucket col, clean_string (some w) = some w := by
  intro w hw
  rw [cleanBucket, bucketCol, List.mem_map] at hw
  obtain ⟨cell, hcell, hbucket⟩ := hw
  have hclean : cleanList w.data = w.data := by
    cases cell with
    | none =>
      have hwother : w = "other" := by rw [← hbucket]; rfl
      rw [hwother]
      decide
    | some v =>
      by_cases hv : v ∈ keptLevels (col.map clean_string)
      · have hwv : w = v := by rw [← hbucket]; simp [bucketCell, hv]
        rw [List.mem_map] at hcell
        obtain ⟨c0, _, hc0⟩ := hcell
        cases c0 with
        | none => simp [clean_string] at hc0
        | some s =>
          have hv2 : v = ⟨cleanList s.data⟩ := by
            simp [clean_string] at hc0
            exact hc0.symm
          rw [hwv, hv2]
          exact cleanList_idem s.data
      · have hwother : w = "other" := by rw [← hbucket]; simp [bucketCell, hv]
        rw [hwother]
        decide
  cases w with
  | mk d =>
    have hd : cleanList d = d := hclean
    exact congrArg (fun l => some (String.mk l)) hd

/-- **C6 (amended).** Re-applying the clean-and-bucket step to its own output
is the identity provided the bucketed column has at most 30 distinct values.
(With 31 distinct bucketed values — 30 kept levels plus `'other'` — the
re-computed top-30 cannot contain all 31, so some value is rewritten; see the
counterexample.) -/
theorem c6_cleanBucket_idem (col : List (Option String))
    (h : (distinctFirst (cleanBucket col)).length ≤ 30) :
    cleanBucket ((cleanBucket col).map some) = cleanBucket col := by
  set out := cleanBucket col with hout
  have hfix := clean_string_fixed_on_cleanBucket col
  rw [← hout] at hfix
  -- the cleaning pass is the identity on the bucketed values
  have hcleanpass : (out.map some).map clean_string = out.map some := by
    rw [List.map_map]
    refine List.map_congr_left ?_
    intro w hw
    exact hfix w hw
  rw [cleanBucket, hcleanpass]
  -- the bucketing pass keeps every value: all of them are in the new top 30
  have hfm : (out.map some).filterMap id = out := by
    rw [List.filterMap_map]
    simp
  have hvc : value_counts_index (out.map some)
      = sortCountDesc (countVal (out.map some)) (distinctFirst out) := by
    rw [value_counts_index, hfm]
  have hlen : (value_counts_index (out.map some)).length ≤ 30 := by
    rw [hvc, (sortCountDesc_perm _ _).length_eq]
    exact h
  have hkept : keptLevels (out.map some) = value_counts_index (out.map some) :=
    List.take_of_length_le hlen
  have hmem : ∀ w ∈ out, w ∈ keptLevels (out.map some) := by
    intro w hw
    rw [hkept, hvc, (sortCountDesc_perm _ _).mem_iff, mem_distinctFirst]
    exact hw
  rw [bucketCol, List.map_map]
  have : ∀ w ∈ out, (bucketCell (keptLevels (out.map some)) ∘ some) w = w := by
    intro w hw
    simp [bucketCell, hmem w hw]
  rw [List.map_congr_left this]
  simp

/-- Witness for the amended C6 at a concrete column (two raw spellings of one
level plus a missing cell). -/
theorem c6_cleanBucket_idem_witness :
    cleanBucket ((cleanBucket [some "Red Apple", none, some "red_apple"]).map some)
      = cleanBucket [some "Red Apple", none, some "red_apple"] :=
  c6_cleanBucket_idem [some "Red Apple", none, some "red_apple"] (by decide)

/-- 30 distinct already-clean level names, each occurring twice. -/
def levelNames : List String :=
  ["aa", "ab", "ac", "ad", "ae", "af", "ag", "ah", "ai", "aj",
   "ak", "al", "am", "an", "ao", "ap", "aq", "ar", "as", "at",
   "au", "av", "aw", "ax", "ay", "az", "ba", "bb", "bc", "bd"]

/-- A column with 33 distinct cleaned values: 30 levels of count 2 and three
singletons.  The first pass keeps the 30 doubled levels and buckets the
singletons, giving `'other'` count 3; on the second pass `'other'` outranks
every kept level, so one kept level falls out of the top 30, whatever the
tie order. -/
def colC6 : List (Option String) :=
  ((levelNames.map (fun a => [some a, some a])).flatten) ++
    [some "r1", some "r2", some "r3"]

set_option maxRecDepth 4000 in
/-- **C6 (counterexample).** Re-applying the clean-and-bucket step to its own
output is not always the identity: on `colC6` the second pass rewrites a
previously kept level to `'other'`, because the bucketed column has 31
distinct values and the re-computed top 30 cannot contain them all. -/
theorem c6_cleanBucket_not_idem :
    cleanBucket ((cleanBucket colC6).map some) ≠ cleanBucket colC6 := by decide

/-! ### `pd.get_dummies(col, prefix=c, drop_first=True)` (Claim C4) -/

/-- Ascending insertion (by the linear order of the level type). -/
def insertAsc {α : Type} [LinearOrder α] (x : α) : List α → List α
  | [] => [x]
  | y :: ys => if x ≤ y then x :: y :: ys else y :: insertAsc x ys

/-- Insertion sort ascending — pandas sorts the levels of a column before
building indicator columns. -/
def sortAsc {α : Type} [LinearOrder α] (l : List α) : List α :=
  l.foldr insertAsc []

theorem insertAsc_perm {α : Type} [LinearOrder α] (x : α) (l : List α) :
    (insertAsc x l).Perm (x :: l) := by
  induction l with
  | nil => exact List.Perm.refl _
  | cons y ys ih =>
    rw [insertAsc]
    by_cases h : x ≤ y
    · rw [if_pos h]
    · rw [if_neg h]
      exact (ih.cons y).trans (List.Perm.swap x y ys)

theorem sortAsc_perm {α : Type} [LinearOrder α] (l : List α) :
    (sortAsc l).Perm l := by
  induction l with
  | nil => exact List.Perm.refl _
  | cons a t ih =>
    rw [sortAsc, List.foldr_cons]
    exact (insertAsc_perm a _).trans (ih.cons a)

/-- The levels `pd.get_dummies` sees: the distinct non-missing values of the
column, sorted ascending. -/
def dummyLevels {α : Type} [DecidableEq α] [LinearOrder α]
    (col : List (Option α)) : List α :=
  sortAsc (distinctFirst (col.filterMap id))

/-- `pd.get_dummies(col, prefix=pre, drop_first=True)`: one indicator column
per level except the first (smallest) level; the column for level `lv` is
named `pre ++ "_" ++ toName lv` and holds 1 exactly where the cell equals
`lv` (missing cells get 0 everywhere, `dummy_na=False`). -/
def get_dummies {α : Type} [DecidableEq α] [LinearOrder α] (toName : α → String)
    (pre : String) (col : List (Option α)) : List (String × List Nat) :=
  ((dummyLevels col).drop 1).map fun lv =>
    (pre ++ "_" ++ toName lv, col.map fun x => if x = some lv then 1 else 0)

/-- The sum, in row `i`, of all indicator columns built from one source
column (rows past the end count 0). -/
def dummyRowSum (cols : List (String × List Nat)) (i : Nat) : Nat :=
  (cols.map (fun c => c.2.getD i 0)).sum

theorem dummyLevels_nodup {α : Type} [DecidableEq α] [LinearOrder α]
    (col : List (Option α)) : (dummyLevels col).Nodup :=
  (sortAsc_perm _).symm.nodup (nodup_distinctFirst _)

theorem mem_dummyLevels {α : Type} [DecidableEq α] [LinearOrder α]
    (col : List (Option α)) (v : α) :
    v ∈ dummyLevels col ↔ some v ∈ col := by
  rw [dummyLevels, (sortAsc_perm _).mem_iff, mem_distinctFirst,
    List.mem_filterMap]
  constructor
  · rintro ⟨x, hx, hid⟩
    cases x with
    | none => simp at hid
    | some w => simp at hid; rw [← hid]; exact hx
  · intro hv
    exact ⟨some v, hv, rfl⟩

theorem sum_indicator_eq_countP {α : Type} [DecidableEq α]
    (x : Option α) (L : List α) :
    (L.map (fun lv => if x = some lv then 1 else 0)).sum
      = L.countP (fun lv => x == some lv) := by
  induction L with
  | nil => rfl
  | cons a t ih =>
    rw [List.map_cons, List.sum_cons, ih, List.countP_cons]
    by_cases h : x = some a
    · simp [h]
      omega
    · simp [h]

/-- The row-`i` sum of the indicator columns of one source column counts the
levels (other than the dropped reference) equal to the cell at row `i`. -/
theorem dummyRowSum_eq {α : Type} [DecidableEq α] [LinearOrder α]
    (toName : α → String) (pre : String) (col : List (Option α)) (i : Nat) :
    dummyRowSum (get_dummies toName pre col) i
      = ((dummyLevels col).drop 1).countP (fun lv => col.getD i none == some lv) := by
  rw [dummyRowSum, get_dummies, List.map_map]
  have hcell : ∀ lv : α,
      (col.map (fun x => if x = some lv then 1 else 0)).getD i 0
        = (if col.getD i none = some lv then 1 else 0) := by
    intro lv
    rw [List.getD_eq_getElem?_getD, List.getElem?_map, List.getD_eq_getElem?_getD]
    cases col[i]? <;> simp
  have h1 : ((dummyLevels col).drop 1).map
        ((fun c : String × List Nat => c.2.getD i 0) ∘
          (fun lv => (pre ++ "_" ++ toName lv,
            col.map fun x => if x = some lv then 1 else 0)))
      = ((dummyLevels col).drop 1).map
          (fun lv => if col.getD i none = some lv then 1 else 0) :=
    List.map_congr_left (fun lv _ => hcell lv)
  rw [h1, sum_indicator_eq_countP]

/-- **C4.** For a categorical source column, `pd.get_dummies(..., prefix=c,
drop_first=True)` produces one fewer indicator column than the number of
distinct retained levels (the smallest level is dropped as the deterministic
reference); every indicator column is named `<source_column>_<level>`; the
per-row sum of the indicators of one source column is at most 1; and it is 0
exactly when the cell is missing or holds the dropped reference level. -/
theorem c4_dummy_encoding {α : Type} [DecidableEq α] [LinearOrder α]
    (toName : α → String) (pre : String) (col : List (Option α))
    (hne : 0 < (dummyLevels col).length) :
    ((get_dummies toName pre col).length + 1
        = (distinctFirst (col.filterMap id)).length) ∧
    (∀ c ∈ get_dummies toName pre col,
      ∃ lv ∈ dummyLevels col, c.1 = pre ++ "_" ++ toName lv) ∧
    (∀ i, dummyRowSum (get_dummies toName pre col) i ≤ 1) ∧
    (∀ i, i < col.length →
      (dummyRowSum (get_dummies toName pre col) i = 0 ↔
        col.getD i none = none ∨
        col.getD i none ∈ ((dummyLevels col).take 1).map some)) := by
  have hnodup : (dummyLevels col).Nodup := dummyLevels_nodup col
  have hnodrop : ((dummyLevels col).drop 1).Nodup :=
    (List.drop_sublist 1 _).nodup hnodup
  refine ⟨?_, ?_, ?_, ?_⟩
  · rw [get_dummies, List.length_map, List.length_drop, dummyLevels,
      (sortAsc_perm _).length_eq]
    rw [dummyLevels, (sortAsc_perm _).length_eq] at hne
    omega
  · intro c hc
    rw [get_dummies, List.mem_map] at hc
    obtain ⟨lv, hlv, hc⟩ := hc
    exact ⟨lv, List.mem_of_mem_drop hlv, by rw [← hc]⟩
  · intro i
    rw [dummyRowSum_eq]
    cases hx : col.getD i none with
    | none =>
      have : ((dummyLevels col).drop 1).countP
          (fun lv => (none : Option α) == some lv) = 0 := by
        rw [List.countP_eq_zero]
        intro lv _
        simp
      omega
    | some v =>
      have hcong : ((dummyLevels col).drop 1).countP
            (fun lv => some v == some lv)
          = ((dummyLevels col).drop 1).countP (fun lv => lv == v) :=
        List.countP_congr (fun lv _ => by
          simp only [beq_iff_eq, Option.some_inj]
          exact eq_comm)
      rw [hcong]
      exact (List.nodup_iff_count_le_one.1 hnodrop) v
  · intro i hi
    rw [dummyRowSum_eq, List.countP_eq_zero]
    have hxmem : col.getD i none ∈ col := by
      rw [List.getD_eq_getElem?_getD, List.getElem?_eq_getElem hi, Option.getD_some]
      exact List.getElem_mem hi
    constructor
    · intro hall
      cases hx : col.getD i none with
      | none => exact Or.inl rfl
      | some v =>
        rw [hx] at hxmem
        have hvlev : v ∈ dummyLevels col := (mem_dummyLevels col v).2 hxmem
        rw [← List.take_append_drop 1 (dummyLevels col), List.mem_append] at hvlev
        rcases hvlev with htake | hdrop
        · exact Or.inr (List.mem_map.2 ⟨v, htake, rfl⟩)
        · have hcon := hall v hdrop
          rw [hx] at hcon
          simp at hcon
    · intro hor lv hlv
      simp only [beq_iff_eq]
      rcases hor with hnone | htake
      · rw [hnone]
        intro hcon
        exact Option.noConfusion hcon
      · rw [List.mem_map] at htake
        obtain ⟨v, hv, hveq⟩ := htake
        intro hcon
        rw [← hveq] at hcon
        have hvl : v = lv := Option.some_inj.1 hcon
        rw [hvl] at hv
        have hdisj := (List.nodup_append.1
          (by rw [List.take_append_drop 1 (dummyLevels col)]; exact hnodup)).2.2
        exact hdisj hv hlv

/-- Witness for C4 on a numeric-coded categorical column with levels 0 and 1. -/
theorem c4_dummy_encoding_witness :
    ((get_dummies (fun n => toString n) "PTHAND" [some 1, some 1, some 0]).length + 1
        = (distinctFirst (([some 1, some 1, some 0] :
            List (Option Nat)).filterMap id)).length) ∧
    dummyRowSum (get_dummies (fun n => toString n) "PTHAND"
      [some 1, some 1, some 0]) 0 ≤ 1 := by
  have h := c4_dummy_encoding (fun n => toString n) "PTHAND"
    ([some 1, some 1, some 0] : List (Option Nat)) (by decide)
  exact ⟨h.1, h.2.2.1 0⟩

/-! ### The Join Engine (Claim C3) -/

/-- An auxiliary table as joined by `DataFrame.join(..., how='left')`: a key
column and `width` payload cells per row. -/
structure AuxTable (κ α : Type) where
  width : Nat
  rows : List (κ × List (Option α))

/-- Index lookup on the auxiliary table (`data_prep.py` guarantees unique
keys via `set_index(..., verify_integrity=True)` before each join, so the
first match is the match). -/
def auxLookup {κ α : Type} [DecidableEq κ] (t : AuxTable κ α) (k : κ) :
    Option (List (Option α)) :=
  (t.rows.find? (fun r => decide (r.1 = k))).map Prod.snd

/-- One left join: every primary row keeps its key and cells; a matching
auxiliary row contributes its cells, an unmatched key contributes a row of
missing cells. -/
def leftJoin {κ α : Type} [DecidableEq κ] (p : List (κ × List (Option α)))
    (t : AuxTable κ α) : List (κ × List (Option α)) :=
  p.map fun r =>
    (r.1, r.2 ++ (match auxLookup t r.1 with
      | some cs => cs
      | none => List.replicate t.width none))

/-- The whole join phase: fold the left joins of all auxiliary tables over
the primary table. -/
def joinAll {κ α : Type} [DecidableEq κ] (p : List (κ × List (Option α)))
    (ts : List (AuxTable κ α)) : List (κ × List (Option α)) :=
  ts.foldl leftJoin p

theorem leftJoin_length {κ α : Type} [DecidableEq κ]
    (p : List (κ × List (Option α))) (t : AuxTable κ α) :
    (leftJoin p t).length = p.length := by
  rw [leftJoin, List.length_map]

theorem leftJoin_keys {κ α : Type} [DecidableEq κ]
    (p : List (κ × List (Option α))) (t : AuxTable κ α) :
    (leftJoin p t).map Prod.fst = p.map Prod.fst := by
  rw [leftJoin, List.map_map]
  rfl

/-- **C3.** Left-joining any sequence of auxiliary tables onto the primary
table (whose keys the script has verified unique) never changes the primary
row count or row order: the key sequence is preserved exactly.  For a single
join, a primary row whose key has no match in the auxiliary table receives a
full row of missing cells — the columns exist and are missing, never absent;
and, under the uniqueness invariant, a matching row contributes exactly its
cells. -/
theorem c3_left_join_invariants {κ α : Type} [DecidableEq κ]
    (p : List (κ × List (Option α))) (ts : List (AuxTable κ α))
    (t : AuxTable κ α)
    (huniq : (t.rows.map Prod.fst).Nodup) :
    ((joinAll p ts).length = p.length ∧
      (joinAll p ts).map Prod.fst = p.map Prod.fst) ∧
    (∀ (i : Nat) (k : κ) (cells : List (Option α)),
      p[i]? = some (k, cells) → auxLookup t k = none →
      (leftJoin p t)[i]? = some (k, cells ++ List.replicate t.width none)) ∧
    (∀ (k : κ) (cs : List (Option α)),
      (k, cs) ∈ t.rows → auxLookup t k = some cs) := by
  refine ⟨?_, ?_, ?_⟩
  · induction ts generalizing p with
    | nil => exact ⟨rfl, rfl⟩
    | cons a ts ih =>
      rw [joinAll, List.foldl_cons]
      have h := ih (leftJoin p a)
      rw [joinAll] at h
      exact ⟨h.1.trans (leftJoin_length p a),
        h.2.trans (leftJoin_keys p a)⟩
  · intro i k cells hp hmiss
    rw [leftJoin, List.getElem?_map, hp, Option.map_some']
    rw [hmiss]
  · intro k cs hmem
    have hfind : ∀ rows : List (κ × List (Option α)),
        (rows.map Prod.fst).Nodup → (k, cs) ∈ rows →
        rows.find? (fun r => decide (r.1 = k)) = some (k, cs) := by
      intro rows
      induction rows with
      | nil => intro _ h; simp at h
      | cons a rest ih =>
        intro hnd hm
        rw [List.map_cons, List.nodup_cons] at hnd
        rcases List.mem_cons.1 hm with heq | hrest
        · rw [← heq]
          rw [List.find?_cons_of_pos]
          simp
        · have hka : a.1 ≠ k := by
            intro hak
            exact hnd.1 (hak ▸ (List.mem_map.2 ⟨(k, cs), hrest, rfl⟩))
          rw [List.find?_cons_of_neg _ (by simpa using hka)]
          exact ih hnd.2 hrest
    rw [auxLookup, hfind t.rows huniq hmem]
    rfl

/-- Witness for C3: one matched and one unmatched primary key. -/
theorem c3_left_join_invariants_witness :
    (joinAll [(1, [some 5]), (2, [some 6])]
        [⟨1, [(1, [some 7])]⟩] : List (Nat × List (Option Nat))).length = 2 ∧
    (leftJoin [(1, [some 5]), (2, [some 6])]
        (⟨1, [(1, [some 7])]⟩ : AuxTable Nat Nat))[1]?
      = some (2, [some 6, none]) := by
  have h := c3_left_join_invariants [(1, [some 5]), (2, [some 6])]
    [⟨1, [(1, [some 7])]⟩] (⟨1, [(1, [some 7])]⟩ : AuxTable Nat Nat)
    (by decide)
  refine ⟨h.1.1, ?_⟩
  have h2 := h.2.1 1 2 [some 6] (by decide) (by decide)
  simpa using h2

/-! ### `set_index(..., verify_integrity=True)` and the FHQ filter (Claim C9) -/

/-- `DataFrame.set_index(keys, verify_integrity=True)`: succeeds with the
keyed rows when the key column is duplicate-free, raises otherwise. -/
def set_index_verify {κ β : Type} [DecidableEq κ] (rows : List (κ × β)) :
    Except Unit (List (κ × β)) :=
  if (rows.map Prod.fst).Nodup then .ok rows else .error ()

/-- A row of `FHQ.csv`: subject id, visit code, and the retained payload. -/
structure FhqRow where
  rid : Nat
  viscode : String
  payload : Nat
deriving DecidableEq

/-- `data_fam.loc[data_fam['VISCODE'] == "sc", :]` — the screening-visit
predicate filter. -/
def fhqFilter (rows : List FhqRow) : List FhqRow :=
  rows.filter (fun r => r.viscode == "sc")

/-- The FHQ pipeline of `data_prep.py`: filter to the screening visit, then
`set_index('RID', verify_integrity=True)`. -/
def fhqPipeline (rows : List FhqRow) :
    Except Unit (List (Nat × FhqRow)) :=
  set_index_verify ((fhqFilter rows).map (fun r => (r.rid, r)))

/-- **C9.** Indexing a table on its declared keys fails immediately when the
keys are not unique (here stated for the primary table's composite
(RID, VISCODE) key, as at `set_index` on line 16); and the FHQ auxiliary
source aborts the run whenever its screening-visit predicate retains more
than one matching row for some subject, rather than silently keeping one. -/
theorem c9_duplicate_keys_abort :
    (∀ rows : List ((Nat × String) × List (Option Nat)),
      ¬(rows.map Prod.fst).Nodup → set_index_verify rows = .error ()) ∧
    (∀ rows : List FhqRow,
      ¬((fhqFilter rows).map (fun r => r.rid)).Nodup →
        fhqPipeline rows = .error ()) := by
  constructor
  · intro rows h
    rw [set_index_verify, if_neg h]
  · intro rows h
    rw [fhqPipeline, set_index_verify, if_neg]
    rw [List.map_map]
    exact h
  
/-- Witness for C9: a duplicated composite key on the primary side, and a
subject with two screening-visit rows on the FHQ side. -/
theorem c9_duplicate_keys_abort_witness :
    set_index_verify [((1, "bl"), ([] : List (Option Nat))),
        ((1, "bl"), [])] = .error () ∧
    fhqPipeline [⟨7, "sc", 0⟩, ⟨7, "sc", 1⟩, ⟨8, "m06", 2⟩] = .error () :=
  ⟨c9_duplicate_keys_abort.1 _ (by decide),
   c9_duplicate_keys_abort.2 _ (by decide)⟩

/-! ### `pd.to_numeric` and the numeric cleaning (Claims C1 and C7) -/

/-- Value of a digit string, most significant first. -/
def digitsToNat (l : List Char) : Nat :=
  l.foldl (fun a c => 10 * a + (c.toNat - 48)) 0

/-- Parse an unsigned decimal literal (digits with an optional fractional
part); every other shape is unparseable. -/
def parseUnsigned (l : List Char) : Option ℚ :=
  match l.dropWhile Char.isDigit with
  | [] => if (l.takeWhile Char.isDigit).isEmpty then none
          else some (digitsToNat (l.takeWhile Char.isDigit))
  | '.' :: frac =>
    if frac.all Char.isDigit
        && !((l.takeWhile Char.isDigit).isEmpty && frac.isEmpty) then
      some ((digitsToNat (l.takeWhile Char.isDigit) : ℚ)
        + (digitsToNat frac : ℚ) / (10 ^ frac.length))
    else none
  | _ => none

/-- Strip leading and trailing blanks (`pd.to_numeric` ignores surrounding
whitespace). -/
def trimSpaces (l : List Char) : List Char :=
  ((l.dropWhile (fun c => c == ' ')).reverse.dropWhile (fun c => c == ' ')).reverse

/-- Optional sign in front of the unsigned literal. -/
def parseSigned : List Char → Option ℚ
  | '-' :: rest => (parseUnsigned rest).map (fun q => -q)
  | '+' :: rest => parseUnsigned rest
  | l => parseUnsigned l

/-- The numeric parser behind `pd.to_numeric`, modelled on optionally signed
decimal literals with surrounding blanks; numbers are rationals. -/
def parseNum (s : String) : Option ℚ := parseSigned (trimSpaces s.data)

/-- `pd.to_numeric` with its default `errors='raise'` (the call at line 159
passes no `errors` argument): a missing cell stays missing, an unparseable
cell raises. -/
def to_numeric (v : Option String) : Except Unit (Option ℚ) :=
  match v with
  | none => .ok none
  | some s =>
    match parseNum s with
    | some q => .ok (some q)
    | none => .error ()

/-- `data[c] = data[c].apply(pd.to_numeric)`: the first raising cell aborts
the whole run. -/
def coerceColumn : List (Option String) → Except Unit (List (Option ℚ))
  | [] => .ok []
  | v :: t =>
    match to_numeric v with
    | .error e => .error e
    | .ok q =>
      match coerceColumn t with
      | .error e => .error e
      | .ok qs => .ok (q :: qs)

/-- `data.replace(' ', np.nan)`: exactly the cells equal to the one-space
string become missing. -/
def blankReplace (col : List (Option String)) : List (Option String) :=
  col.map (fun v => if v = some " " then none else v)

/-- `.str.replace("<", "").str.replace(">", "")` on one cell. -/
def stripAngles (s : String) : String :=
  ⟨s.data.filter (fun c => c ≠ '<' ∧ c ≠ '>')⟩

/-- The numeric-normalizer pipeline for an ordinary registry-numeric column:
blank replacement then elementwise `pd.to_numeric`. -/
def numericPipeline (col : List (Option String)) :
    Except Unit (List (Option ℚ)) :=
  coerceColumn (blankReplace col)

theorem coerceColumn_error (l : List (Option String))
    (h : ∃ s : String, some s ∈ l ∧ parseNum s = none) :
    coerceColumn l = .error () := by
  obtain ⟨s, hmem, hparse⟩ := h
  induction l with
  | nil => simp at hmem
  | cons v t ih =>
    rcases List.mem_cons.1 hmem with heq | hrest
    · have hto : to_numeric v = .error () := by
        rw [← heq, to_numeric, hparse]
      rw [coerceColumn, hto]
    · cases hv : to_numeric v with
      | error e => rw [coerceColumn, hv]
      | ok q => rw [coerceColumn, hv, ih hrest]

theorem coerceColumn_ok (l : List (Option String)) (out : List (Option ℚ))
    (h : coerceColumn l = .ok out) :
    out = l.map (fun v => v.bind (fun s => parseNum s)) := by
  induction l generalizing out with
  | nil =>
    rw [coerceColumn] at h
    cases h
    rfl
  | cons v t ih =>
    rw [coerceColumn] at h
    cases hv : to_numeric v with
    | error e => rw [hv] at h; cases h
    | ok q =>
      rw [hv] at h
      cases ht : coerceColumn t with
      | error e => rw [ht] at h; cases h
      | ok qs =>
        rw [ht] at h
        cases h
        have hq : q = v.bind (fun s => parseNum s) := by
          cases v with
          | none =>
            rw [to_numeric] at hv
            cases hv
            rfl
          | some s =>
            rw [to_numeric] at hv
            cases hp : parseNum s with
            | none => rw [hp] at hv; cases hv
            | some r => rw [hp] at hv; cases hv; simp [hp]
        rw [List.map_cons, ← hq, ih qs ht]

/-- **C1 (amended).** In the numeric-coercion loop (`pd.to_numeric` with its
default `errors='raise'`), a value that fails coercion does **not** become
missing: it raises and aborts the run.  Already-missing cells (including the
one-space blanks replaced beforehand) pass through as missing, and when the
column coerces successfully every cell is exactly the parse of its value. -/
theorem c1_to_numeric_raise (col : List (Option String)) :
    ((∃ s : String, some s ∈ blankReplace col ∧ parseNum s = none) →
      numericPipeline col = .error ()) ∧
    (∀ out : List (Option ℚ), numericPipeline col = .ok out →
      out = (blankReplace col).map (fun v => v.bind (fun s => parseNum s))) := by
  constructor
  · intro h
    exact coerceColumn_error _ h
  · intro out h
    exact coerceColumn_ok _ out h

/-- **C1 (counterexample).** A single unparseable value makes the coercion
step abort instead of producing a missing value: the claim's "never raises"
is false on the code. -/
theorem c1_unparseable_raises :
    numericPipeline [some "abc"] = .error () := rfl

/-- Witness for the amended C1. -/
theorem c1_to_numeric_raise_witness :
    numericPipeline [some "abc", none] = .error () :=
  (c1_to_numeric_raise [some "abc", none]).1 ⟨"abc", by decide, by decide⟩

/-- **C7 (amended).** In a censored column, a value `"<x"` has its comparison
symbol stripped and coerces to the number `x`; the cell equal to the exact
one-space string `" "` is normalized to missing before coercion (that is the
only blank `data.replace(' ', np.nan)` matches); and an empty or
whitespace-only string never parses — in particular it can never coerce to
the number zero. -/
theorem c7_censored_blank_zero :
    (∀ (s : String) (q : ℚ), parseNum s = some q →
      (∀ c ∈ s.data, c ≠ '<' ∧ c ≠ '>') →
      to_numeric (some (stripAngles ("<" ++ s))) = .ok (some q)) ∧
    (∀ (col : List (Option String)) (i : Nat), col[i]? = some (some " ") →
      (blankReplace col)[i]? = some none) ∧
    (∀ s : String, s.data.all (fun c => c == ' ') → parseNum s = none) := by
  refine ⟨?_, ?_, ?_⟩
  · intro s q hq hnoangle
    have hfil : ("<" ++ s).data.filter (fun c => decide (c ≠ '<' ∧ c ≠ '>'))
        = s.data := by
      rw [String.data_append]
      show List.filter _ ('<' :: s.data) = s.data
      rw [List.filter_cons]
      have : (decide (('<' : Char) ≠ '<' ∧ ('<' : Char) ≠ '>')) = false := by decide
      rw [this]
      simp only [Bool.false_eq_true, if_false]
      exact List.filter_eq_self.2 (fun c hc => by simpa using hnoangle c hc)
    have hs : stripAngles ("<" ++ s) = s := by
      cases s with
      | mk d => exact congrArg String.mk hfil
    rw [hs, to_numeric, hq]
  · intro col i hcol
    rw [blankReplace, List.getElem?_map, hcol, Option.map_some']
    rw [if_pos rfl]
  · intro s hsp
    have h1 : s.data.dropWhile (fun c => c == ' ') = [] :=
      List.dropWhile_eq_nil_iff.2 (fun x hx => (List.all_eq_true.1 hsp) x hx)
    have ht : trimSpaces s.data = [] := by
      rw [trimSpaces, h1]
      rfl
    rw [parseNum, ht]
    rfl

/-- **C7 (counterexample).** The empty string is blank but is not normalized
to missing — `data.replace(' ', np.nan)` only matches the one-space string —
and coercing it afterwards raises instead of producing a missing value. -/
theorem c7_empty_blank_kept :
    blankReplace [some ""] = [some ""] ∧
    numericPipeline [some ""] = .error () := ⟨rfl, rfl⟩

/-- Witness for the amended C7: `"<10"` coerces to `10`, the one-space
blank becomes missing, the one-space string does not parse. -/
theorem c7_censored_blank_zero_witness :
    to_numeric (some (stripAngles ("<" ++ "10"))) = .ok (some (10 : ℚ)) ∧
    (blankReplace [some " "])[0]? = some none ∧
    parseNum " " = none := by
  have h := c7_censored_blank_zero
  refine ⟨h.1 "10" (10 : ℚ) ?_ (by decide),
    h.2.1 [some " "] 0 (by decide), h.2.2 " " (by decide)⟩
  rw [show parseNum "10" = some ((10 : ℕ) : ℚ) from rfl]
  simp

/-! ### The PTDEMOG latest-record selection (Claim C2) -/

/-- A row of `PTDEMOG.csv`: subject id, `USERDATE` timestamp, payload. -/
structure DemoRow where
  rid : Nat
  userdate : Int
  payload : Nat
deriving DecidableEq

/-- The `USERDATE` values of one subject's group (`groupby(['RID'])`). -/
def grpDates (rows : List DemoRow) (rid : Nat) : List Int :=
  (rows.filter (fun x => x.rid == rid)).map (fun x => x.userdate)

/-- `g['USERDATE'].rank(ascending=False)` with the pandas default
`method='average'`: the rank of a row is the number of strictly later
timestamps in its group plus the average position within its block of ties,
`(e + 1) / 2` for `e` tied values. -/
def rnk (rows : List DemoRow) (r : DemoRow) : ℚ :=
  ((grpDates rows r.rid).countP (fun u => decide (r.userdate < u)) : ℚ)
    + (((grpDates rows r.rid).countP (fun u => u == r.userdate) : ℚ) + 1) / 2

/-- `data_demo.loc[data_demo['RNK'] == 1, cols]`: keep the rows of rank 1. -/
def selectLatest (rows : List DemoRow) : List DemoRow :=
  rows.filter (fun r => decide (rnk rows r = 1))

/-- A row has rank 1 exactly when no same-subject row is strictly later and
its timestamp is unique in the group. -/
theorem rnk_eq_one_iff (rows : List DemoRow) (r : DemoRow) :
    rnk rows r = 1 ↔
      ((grpDates rows r.rid).countP (fun u => decide (r.userdate < u)) = 0 ∧
       (grpDates rows r.rid).countP (fun u => u == r.userdate) = 1) := by
  rw [rnk]
  constructor
  · intro h
    have h2 : ((grpDates rows r.rid).countP (fun u => decide (r.userdate < u)) : ℚ) * 2
        + (((grpDates rows r.rid).countP (fun u => u == r.userdate) : ℚ) + 1) = 2 := by
      field_simp at h
      linarith
    have h3 : (grpDates rows r.rid).countP (fun u => decide (r.userdate < u)) * 2
        + ((grpDates rows r.rid).countP (fun u => u == r.userdate) + 1) = 2 := by
      exact_mod_cast h2
    omega
  · rintro ⟨hg, he⟩
    rw [hg, he]
    norm_num

theorem grpDates_countP_eq (rows : List DemoRow) (r : DemoRow) (p : Int → Bool) :
    (grpDates rows r.rid).countP p
      = rows.countP (fun x => p x.userdate && (x.rid == r.rid)) := by
  rw [grpDates, List.countP_map, List.countP_filter]
  rfl

/-- **C2 (amended).** When a subject's greatest `USERDATE` is attained by
exactly one row, `rank(ascending=False) == 1` keeps exactly that row for the
subject.  (When several rows of a subject tie for the greatest timestamp,
all their average ranks exceed 1 and the subject is dropped entirely — see
the counterexample — rather than the first-occurring row being kept.) -/
theorem c2_latest_record (rows : List DemoRow) (r : DemoRow)
    (hmem : r ∈ rows) (honce : rows.count r = 1)
    (hmax : ∀ x ∈ rows, x.rid = r.rid → x ≠ r → x.userdate < r.userdate) :
    r ∈ selectLatest rows ∧
    (selectLatest rows).countP (fun x => x.rid == r.rid) = 1 := by
  have hg : (grpDates rows r.rid).countP (fun u => decide (r.userdate < u)) = 0 := by
    rw [grpDates_countP_eq, List.countP_eq_zero]
    intro x hx
    simp only [Bool.and_eq_true, decide_eq_true_eq, beq_iff_eq, not_and]
    intro hlt hrid
    have hne : x ≠ r := by
      intro hxr
      rw [hxr] at hlt
      exact lt_irrefl _ hlt
    exact absurd hlt (not_lt.2 (le_of_lt (hmax x hx hrid hne)))
  have he : (grpDates rows r.rid).countP (fun u => u == r.userdate) = 1 := by
    rw [grpDates_countP_eq]
    have hcong : rows.countP (fun x => (x.userdate == r.userdate) && (x.rid == r.rid))
        = rows.countP (fun x => x == r) := by
      refine List.countP_congr ?_
      intro x hx
      simp only [Bool.and_eq_true, beq_iff_eq]
      constructor
      · rintro ⟨hdate, hrid⟩
        by_contra hne
        exact absurd hdate (ne_of_lt (hmax x hx hrid hne))
      · intro hxr
        rw [hxr]
        exact ⟨rfl, rfl⟩
    rw [hcong, ← List.count]
    exact honce
  have hrnk : rnk rows r = 1 := (rnk_eq_one_iff rows r).2 ⟨hg, he⟩
  have hrmem : r ∈ selectLatest rows := by
    rw [selectLatest, List.mem_filter]
    exact ⟨hmem, by rw [hrnk]; simp⟩
  refine ⟨hrmem, ?_⟩
  rw [selectLatest, List.countP_filter]
  have hcong2 : rows.countP (fun x => (x.rid == r.rid) && decide (rnk rows x = 1))
      = rows.countP (fun x => x == r) := by
    refine List.countP_congr ?_
    intro x hx
    simp only [Bool.and_eq_true, beq_iff_eq, decide_eq_true_eq]
    constructor
    · rintro ⟨hrid, hx1⟩
      by_contra hne
      have hlt : x.userdate < r.userdate := hmax x hx hrid hne
      have hgx := ((rnk_eq_one_iff rows x).1 hx1).1
      rw [List.countP_eq_zero] at hgx
      have hrdate : r.userdate ∈ grpDates rows x.rid := by
        rw [grpDates, List.mem_map]
        exact ⟨r, List.mem_filter.2 ⟨hmem, by simp [hrid]⟩, rfl⟩
      exact absurd (by simpa using hlt) (by simpa using hgx _ hrdate)
    · intro hxr
      rw [hxr]
      exact ⟨rfl, by rw [hrnk]⟩
  rw [hcong2, ← List.count]
  exact honce

/-- The PTDEMOG tie scenario: one subject, two rows with the same
timestamp. -/
def demoTie : List DemoRow := [⟨1, 5, 0⟩, ⟨1, 5, 1⟩]

theorem rnk_demoTie_ne_one (r : DemoRow) (hr : r ∈ demoTie) :
    ¬rnk demoTie r = 1 := by
  intro h1
  have he := ((rnk_eq_one_iff demoTie r).1 h1).2
  have hr2 : r = (⟨1, 5, 0⟩ : DemoRow) ∨ r = (⟨1, 5, 1⟩ : DemoRow) := by
    simpa [demoTie] using hr
  rcases hr2 with hr1 | hr1
  · rw [hr1] at he
    exact absurd he (by decide)
  · rw [hr1] at he
    exact absurd he (by decide)

/-- **C2 (counterexample).** Subject 1 is present in the input with two rows
tied at the greatest timestamp, yet the selector output contains **no** row
for it (both rows get average rank 1.5), contradicting "exactly one row per
subject, first occurrence wins on ties". -/
theorem c2_tie_drops_subject :
    demoTie ≠ [] ∧ (∀ r ∈ demoTie, r.rid = 1) ∧ selectLatest demoTie = [] := by
  refine ⟨by decide, by decide, ?_⟩
  rw [selectLatest, List.filter_eq_nil_iff]
  intro r hr
  simp only [decide_eq_true_eq]
  exact rnk_demoTie_ne_one r hr

/-- Witness for the amended C2: subject 1 has rows at times 3 and 5, subject
2 one row; the time-5 row is kept and is subject 1's only output row. -/
theorem c2_latest_record_witness :
    (⟨1, 5, 1⟩ : DemoRow) ∈ selectLatest [⟨1, 3, 0⟩, ⟨1, 5, 1⟩, ⟨2, 4, 2⟩] ∧
    (selectLatest [⟨1, 3, 0⟩, ⟨1, 5, 1⟩, ⟨2, 4, 2⟩]).countP
      (fun x => x.rid == 1) = 1 :=
  c2_latest_record [⟨1, 3, 0⟩, ⟨1, 5, 1⟩, ⟨2, 4, 2⟩] ⟨1, 5, 1⟩
    (by decide) (by decide) (by decide)
